import Mathlib

/-!
Verification development for the CART-style decision-tree trainer in
`ModelsML/DecisionTrees.py` (classes `GeneralDecisionTree` and
`DecisionTreeClassification`).

The Python source is shallowly embedded as executable Lean definitions:

* feature values become the inductive `Value` (a rational number, a string,
  or a missing value `na` standing for Python `None`);
* numpy float arithmetic on impurities becomes exact `ℚ` arithmetic;
  where numpy would produce `nan` (a class-count total of zero, i.e. an
  empty side of a candidate split) and the `nan < best` comparison would be
  false, the embedding carries an explicit validity flag instead;
* exceptions become `Option`/explicit error constructors: `none` or
  `.crash` marks an uncaught Python exception, and the `TypeError` that
  `traverse` catches is the distinguished `EvalOut.typeErr`;
* the unbounded Python recursion of `grow_tree` takes an explicit fuel
  argument; `GrowResult.fuelOut` is a model artifact that is proved
  unreachable for sufficient fuel.

The collaborators `gini` and `find_splits` live in `ModelsML/util.py`,
which is not part of the sources under review; they are modelled from the
specification's contracts (see their doc comments).
-/

/-- A single feature (or label) value as the Python code manipulates it:
a number, a string, or a missing value (`None`). -/
inductive Value where
  | num (q : ℚ)
  | str (s : String)
  | na
deriving DecidableEq, Repr

/-- Ascending order used by `np.unique`.  Only the homogeneous cases
(`num`/`num`, `str`/`str`) are ever exercised by well-formed columns; the
cross-constructor cases fix an arbitrary total order. -/
def vlt : Value → Value → Bool
  | .na, .na => false
  | .na, _ => true
  | .num _, .na => false
  | .num a, .num b => decide (a < b)
  | .num _, .str _ => true
  | .str a, .str b => decide (a < b)
  | .str _, _ => false

/-- `x > t` as numpy evaluates it elementwise: defined for number/number and
string/string, a `TypeError` (`none`) otherwise — in particular when either
side is missing (`None`). -/
def valueCmpGt : Value → Value → Option Bool
  | .num a, .num b => some (decide (b < a))
  | .str a, .str b => some (decide (b < a))
  | _, _ => none

/-- The per-column data type tag: `'n'` (numeric), `'o'` (ordinal), `'c'`
(categorical). -/
inductive DType where
  | n
  | o
  | c
deriving DecidableEq, Repr

/-- Class labels.  The code only compares labels for equality and sorts
them with `np.unique`; natural numbers are enough. -/
abbrev Label := ℕ

/-- A candidate split point: numeric/ordinal thresholds are bare values,
categorical candidates are the subsets produced by `find_splits`. -/
inductive Cand where
  | v (x : Value)
  | subset (s : List Value)
deriving DecidableEq, Repr

/-- The split rule stored on a node, as built in `grow_tree`
(lines 131–134): `lambda x: (x > best_thr).astype(int)` for numeric and
ordinal features, `lambda x: (x == best_thr).astype(int)` for categorical
features. -/
inductive SplitRule where
  | gt (t : Value)
  | eq (cand : Cand)
deriving DecidableEq, Repr

/-- A tree node (`GeneralDecisionTree` plus the classification state of
`DecisionTreeClassification`): name, optional split rule and split feature
index, the child list backing `_children`, the class-count vector and the
represented example count. -/
inductive DTree where
  | mk (name : String) (split_rule : Option SplitRule) (split_feature : Option ℕ)
      (children : List DTree) (class_counts : List ℕ) (n_subset : ℕ)

def DTree.name : DTree → String
  | .mk n _ _ _ _ _ => n

def DTree.split_rule : DTree → Option SplitRule
  | .mk _ r _ _ _ _ => r

def DTree.split_feature : DTree → Option ℕ
  | .mk _ _ f _ _ _ => f

def DTree.children : DTree → List DTree
  | .mk _ _ _ ch _ _ => ch

def DTree.class_counts : DTree → List ℕ
  | .mk _ _ _ _ cc _ => cc

def DTree.n_subset : DTree → ℕ
  | .mk _ _ _ _ _ ns => ns

/-- Overwrite the split fields, leaving everything else in place (the
assignments `self.split_feature = ...` / `self.split_rule = ...`). -/
def DTree.setSplit : DTree → Option SplitRule → Option ℕ → DTree
  | .mk n _ _ ch cc ns, r, f => .mk n r f ch cc ns

/-- Append to the backing `_children` list (the body of the `children`
setter appends each element of the assigned pair). -/
def DTree.appendChildren : DTree → List DTree → DTree
  | .mk n r f ch cc ns, cs => .mk n r f (ch ++ cs) cc ns

/-- The `children` property setter: asserts that exactly two children are
assigned (`AssertionError` is `none`), then appends both to the existing
backing list — it never clears what is already there. -/
def DTree.setChildren (t : DTree) (cs : List DTree) : Option DTree :=
  if cs.length = 2 then some (t.appendChildren cs) else none

/-- One pass of the `children` deleter's loop
`for child in self._children: self._children.remove(child)` — a Python
loop that mutates the list it iterates, so the iteration index advances
past elements that slid down.  `i` is the iterator position; distinct child
objects make `remove` erase exactly the element at the current index.
The fuel is the initial length, enough because the list shrinks at every
step taken. -/
def pyDelLoop : ℕ → List DTree → ℕ → List DTree
  | 0, l, _ => l
  | fu + 1, l, i => if i < l.length then pyDelLoop fu (l.eraseIdx i) (i + 1) else l

/-- The `children` property deleter. -/
def DTree.delChildren (t : DTree) : DTree :=
  match t with
  | .mk n r f ch cc ns => .mk n r f (pyDelLoop ch.length ch 0) cc ns

/-- Outcome of evaluating a node's stored rule on one example, in
`traverse`: a child index, a `TypeError` (caught by `traverse`), or any
other exception (uncaught). -/
inductive EvalOut where
  | idx (i : ℕ)
  | typeErr
  | otherErr
deriving DecidableEq, Repr

/-- Apply a stored split rule to one scalar feature value, as
`self.split_rule(x[...])` followed by `np.asscalar` does:
`(x > t).astype(int)` raises `TypeError` on an incompatible value
(e.g. `None`); `(x == c).astype(int)` never raises for a scalar candidate,
and a one-element candidate array broadcasts to a single comparison, but a
longer candidate array yields a multi-element result on which `asscalar`
raises (not a `TypeError`). -/
def applyRuleScalar : SplitRule → Value → EvalOut
  | .gt t, v =>
    match valueCmpGt v t with
    | some b => .idx (cond b 1 0)
    | none => .typeErr
  | .eq (.v t), v => .idx (if v = t then 1 else 0)
  | .eq (.subset [t]), v => .idx (if v = t then 1 else 0)
  | .eq (.subset _), _ => .otherErr

/-- `List.mapM` over `Option`, written as plain recursion so that proofs can
unfold it: `none` is a propagated exception. -/
def mapOpt (f : α → Option β) : List α → Option (List β)
  | [] => some []
  | a :: as =>
    match f a with
    | none => none
    | some b =>
      match mapOpt f as with
      | none => none
      | some bs => some (b :: bs)

/-- Boolean-mask selection `l[mask]` (numpy fancy indexing). -/
def selectWhere : List Bool → List α → List α
  | true :: ms, a :: as => a :: selectWhere ms as
  | false :: ms, _ :: as => selectWhere ms as
  | _, _ => []

/-- `~mask`. -/
def negMask : List Bool → List Bool
  | [] => []
  | b :: ms => (!b) :: negMask ms

/-- Sorted duplicate-free insertion of a `Value` (building block of
`np.unique` on a feature column). -/
def insV (a : Value) : List Value → List Value
  | [] => [a]
  | b :: bs =>
    if a = b then b :: bs
    else if vlt a b then a :: b :: bs
    else b :: insV a bs

/-- `np.unique(feature_values)`: the distinct values in ascending order. -/
def uniqueSortedV (l : List Value) : List Value := l.foldr insV []

/-- Sorted duplicate-free insertion of a label. -/
def insN (a : ℕ) : List ℕ → List ℕ
  | [] => [a]
  | b :: bs =>
    if a = b then b :: bs
    else if a < b then a :: b :: bs
    else b :: insN a bs

/-- `np.unique(labels)`: the distinct labels in ascending order. -/
def uniqueSortedN (l : List ℕ) : List ℕ := l.foldr insN []

/-- The masked assignment `new[np.isin(classes, uniq, assume_unique=True)] = counts`
on `new = np.zeros(classes.shape)`: walk the class ordering, consuming the
next count at each position whose class is in `uniq`, writing zero
elsewhere. -/
def maskAssign : List Label → List Label → List ℕ → List ℕ
  | [], _, _ => []
  | c :: cs, uniq, counts =>
    if c ∈ uniq then counts.headD 0 :: maskAssign cs uniq counts.tail
    else 0 :: maskAssign cs uniq counts

/-- Lines 216–225 of the source: the class-count distribution of a list of
labels, re-expressed over the global class ordering. -/
def distOver (classes : List Label) (labs : List Label) : List ℕ :=
  maskAssign classes (uniqueSortedN labs) ((uniqueSortedN labs).map (fun a => labs.count a))

/-- Modelled from the spec: `gini(counts, total)` from `ModelsML/util.py`
(not among the sources under review) "must satisfy the Gini formula
`1 - Σ (count_i/total)²` over the supplied class ordering".  In exact
rational arithmetic a zero `total` makes every quotient zero; the float
code would produce `nan` there, which the split-search guard below accounts
for separately. -/
def giniQ (counts : List ℕ) (total : ℕ) : ℚ :=
  1 - ((counts.map (fun c => ((c : ℚ) / (total : ℚ)) ^ 2)).sum)

/-- Modelled from the spec: `find_splits(unique_values)` from
`ModelsML/util.py` (not among the sources under review), the Split
Candidate Generator — deterministic, produces "candidate subsets/values"
and "must enumerate at least all single-value subsets".  Modelled as all
non-empty proper sublists of the unique values (the classical CART
categorical candidate set), in the deterministic order of
`List.sublists`. -/
def findSplits (uniq : List Value) : List (List Value) :=
  uniq.sublists.filter (fun s => !s.isEmpty && decide (s.length < uniq.length))

/-- `np.isin(v, threshold)` for one element: membership for a subset
candidate, equality for a bare value. -/
def npIsinOne (v : Value) (cand : Cand) : Bool :=
  match cand with
  | .v t => decide (v = t)
  | .subset s => decide (v ∈ s)

/-- Lines 205–208 of the source: the selection mask of one candidate over a
feature column — membership (`np.isin`) for categorical columns, strict
`>` comparison otherwise (`none` models an uncaught `TypeError` on an
incomparable value). -/
def searchSelection (dt : DType) (cand : Cand) (x : List Value) : Option (List Bool) :=
  match dt with
  | .c => some (x.map (fun v => npIsinOne v cand))
  | _ =>
    match cand with
    | .v t => mapOpt (fun v => valueCmpGt v t) x
    | .subset _ => none

/-- The candidate enumeration of `_best_split_classification`: every
distinct value for numeric/ordinal columns, the generated subsets for
categorical columns (lines 196–201). -/
def candidatesFor (dt : DType) (x : List Value) : List Cand :=
  match dt with
  | .c => (findSplits (uniqueSortedV x)).map Cand.subset
  | _ => (uniqueSortedV x).map Cand.v

/-- Evaluation of one candidate inside `_best_split_classification`
(lines 203–232): distributions of both sides over the class ordering and
the size-weighted impurity.  `ok` records that both sides are non-empty:
with an empty side the float code divides by zero, every impurity involved
becomes `nan`, and the `gini_split < impurity` update test is false — the
flag makes that observable in exact arithmetic. -/
structure CandInfo where
  gS : ℚ
  ld : List ℕ
  rd : List ℕ
  ok : Bool
deriving DecidableEq, Repr

def candEval (x : List Value) (y : List Label) (classes : List Label) (dt : DType)
    (cand : Cand) : Option CandInfo :=
  match searchSelection dt cand x with
  | none => none
  | some sel =>
    let numLabels := y.length
    let right := selectWhere sel y
    let left := selectWhere (negMask sel) y
    let numRight := right.length
    let rd := distOver classes right
    let ld := distOver classes left
    let gR := giniQ rd numRight
    let gL := giniQ ld (numLabels - numRight)
    let gS := ((numRight : ℚ) * gR + ((numLabels - numRight : ℕ) : ℚ) * gL) / (numLabels : ℚ)
    some ⟨gS, ld, rd, decide (numRight ≠ 0) && decide (numLabels - numRight ≠ 0)⟩

/-- Running state of `_best_split_classification`
(line 195: `best_thr, impurity, best_left_dist, best_right_dist = None, 1, None, None`). -/
structure SplitResult where
  bestThr : Option Cand
  impurity : ℚ
  bestLeft : Option (List ℕ)
  bestRight : Option (List ℕ)
deriving DecidableEq, Repr

/-- One iteration of the candidate loop: update the running best only on a
strict improvement (`gini_split < impurity`, line 234), and only when the
float impurity is a number rather than `nan` (`info.ok`). -/
def splitStep (x : List Value) (y : List Label) (classes : List Label) (dt : DType)
    (st : SplitResult) (cand : Cand) : Option SplitResult :=
  match candEval x y classes dt cand with
  | none => none
  | some info =>
    if info.ok = true ∧ info.gS < st.impurity then
      some ⟨some cand, info.gS, some info.ld, some info.rd⟩
    else some st

def splitLoop (x : List Value) (y : List Label) (classes : List Label) (dt : DType) :
    SplitResult → List Cand → Option SplitResult
  | st, [] => some st
  | st, c :: cs =>
    match splitStep x y classes dt st c with
    | none => none
    | some st2 => splitLoop x y classes dt st2 cs

/-- `DecisionTreeClassification._best_split_classification`: the best
threshold/subset for one feature column, its weighted impurity, and the
two child distributions.  `none` is an uncaught exception during the
search. -/
def bestSplitClassification (x : List Value) (y : List Label) (dt : DType)
    (classes : List Label) : Option SplitResult :=
  splitLoop x y classes dt ⟨none, 1, none, none⟩ (candidatesFor dt x)

/-- Column extraction `X[:, idx]` from a row-major feature matrix. -/
def getCol (X : List (List Value)) (idx : ℕ) : List Value :=
  X.map (fun row => row.getD idx .na)

/-- Running state of the feature loop in `grow_tree` (lines 116–124):
the running best impurity, the best (threshold, feature index, data type)
if any improvement happened, and the child distributions returned by the
most recent `_best_split_classification` call — the source rebinds
`left_distribution`/`right_distribution` on every iteration, whether or
not that feature became the best. -/
structure LoopState where
  bestGini : ℚ
  best? : Option (Option Cand × ℕ × DType)
  lastLeft : Option (List ℕ)
  lastRight : Option (List ℕ)
deriving DecidableEq, Repr

def featureStep (X : List (List Value)) (y : List Label) (classes : List Label)
    (st : LoopState) (p : ℕ × DType) : Option LoopState :=
  match bestSplitClassification (getCol X p.1) y p.2 classes with
  | none => none
  | some r =>
    if r.impurity < st.bestGini then
      some ⟨r.impurity, some (r.bestThr, p.1, p.2), r.bestLeft, r.bestRight⟩
    else some ⟨st.bestGini, st.best?, r.bestLeft, r.bestRight⟩

def featLoopGo (X : List (List Value)) (y : List Label) (classes : List Label) :
    LoopState → List (ℕ × DType) → Option LoopState
  | st, [] => some st
  | st, p :: ps =>
    match featureStep X y classes st p with
    | none => none
    | some st2 => featLoopGo X y classes st2 ps

/-- The `for idx, data_type in zip(range(X.shape[1]), data_types)` loop. -/
def featureLoop (X : List (List Value)) (y : List Label) (dts : List DType)
    (classes : List Label) (bg : ℚ) : Option LoopState :=
  featLoopGo X y classes ⟨bg, none, none, none⟩ ((List.range (X.headD []).length).zip dts)

/-- The committed split rule (lines 131–134): `x > best_thr` for numeric
and ordinal features, `x == best_thr` for categorical features.  The
`subset` fallback under a numeric tag never arises (numeric candidates are
bare values); it is given a harmless rule. -/
def commitRule (dt : DType) (cand : Cand) : SplitRule :=
  match dt with
  | .c => .eq cand
  | _ =>
    match cand with
    | .v t => .gt t
    | .subset _ => .gt .na

/-- Line 137: the committed rule applied to a whole column at once,
following numpy broadcasting of `==`: a bare value or a one-element
candidate array compares elementwise against the column; a longer
candidate array only lines up if its length equals the column's (then the
comparison is positional), and otherwise the expression raises (`none`).
The `>` rule compares elementwise and raises on an incomparable value. -/
def applyRuleCol (r : SplitRule) (col : List Value) : Option (List Bool) :=
  match r with
  | .gt t => mapOpt (fun v => valueCmpGt v t) col
  | .eq (.v t) => some (col.map (fun v => decide (v = t)))
  | .eq (.subset [t]) => some (col.map (fun v => decide (v = t)))
  | .eq (.subset s) =>
    if col.length = s.length then some (List.zipWith (fun v w => decide (v = w)) col s)
    else none

/-- `current_depth > max_depth` when a ceiling is set (lines 111–114). -/
def depthExceeded (md : Option ℕ) (cd : ℕ) : Bool :=
  match md with
  | none => false
  | some m => decide (m < cd)

/-- Outcome of `grow_tree`: the mutated node on normal return, `crash` for
an uncaught exception, `fuelOut` when the model's fuel runs out (proved
unreachable for sufficient fuel). -/
inductive GrowResult where
  | ok (t : DTree)
  | crash
  | fuelOut

def GrowResult.tree? : GrowResult → Option DTree
  | .ok t => some t
  | _ => none

/-- `DecisionTreeClassification.grow_tree` (lines 90–172), one Lean
equation per source step: the two stopping guards; the per-feature search
loop; the commit test `(best_thr is not None) and (max_gini > best_gini)`;
the split-rule assignment and its application to the committed column; the
post-hoc `min_size` check that reverts the split fields; the two child
constructions (each carrying the loop's **last** distributions, with
`n_subset` their sum) and recursive calls — which pass `min_size` and
`max_depth` along but leave `max_gini` at its default `1`; finally the
children-pair assignment through the setter. -/
def growTree : ℕ → DTree → List (List Value) → List Label → List DType → ℚ →
    List Label → ℕ → Option ℕ → ℕ → ℚ → GrowResult
  | 0, _, _, _, _, _, _, _, _, _, _ => .fuelOut
  | fuel + 1, t, X, y, data_types, best_gini, classes, min_size, max_depth,
      current_depth, max_gini =>
    if y.length < min_size ∨ best_gini = 0 then .ok t
    else if depthExceeded max_depth current_depth then .ok t
    else
      match featureLoop X y data_types classes best_gini with
      | none => .crash
      | some st =>
        match st.best? with
        | some (some bestThr, bestPInd, bestType) =>
          if max_gini > st.bestGini then
            let rule := commitRule bestType bestThr
            let t1 := t.setSplit (some rule) (some bestPInd)
            match applyRuleCol rule (getCol X bestPInd) with
            | none => .crash
            | some splits =>
              let rightY := selectWhere splits y
              let leftY := selectWhere (negMask splits) y
              if rightY.length < min_size ∨ leftY.length < min_size then
                .ok (t.setSplit none none)
              else
                match st.lastLeft, st.lastRight with
                | some ld, some rd =>
                  let leftX := selectWhere (negMask splits) X
                  let rightX := selectWhere splits X
                  let leftChild := DTree.mk (t.name ++ "_" ++ toString bestPInd ++ "_child1")
                    none none [] ld ld.sum
                  match growTree fuel leftChild leftX leftY data_types
                      (giniQ ld leftY.length) classes min_size max_depth (current_depth + 1) 1 with
                  | .ok lc =>
                    let rightChild := DTree.mk (t.name ++ "_" ++ toString bestPInd ++ "_child2")
                      none none [] rd rd.sum
                    match growTree fuel rightChild rightX rightY data_types
                        (giniQ rd rightY.length) classes min_size max_depth (current_depth + 1) 1 with
                    | .ok rc =>
                      match t1.setChildren [lc, rc] with
                      | some t2 => .ok t2
                      | none => .crash
                    | .crash => .crash
                    | .fuelOut => .fuelOut
                  | .crash => .crash
                  | .fuelOut => .fuelOut
                | _, _ => .crash
          else .ok t
        | _ => .ok t

/-- Evaluate a node's stored rule on an example inside `traverse`
(line 47, `self.split_rule(x[self.split_feature])`): the indexing
`x[self.split_feature]` happens first (an out-of-range index raises an
uncaught `IndexError`; `x[None]` merely reshapes), then the stored rule —
`None` for a leaf, so calling it raises the `TypeError` the handler
catches. -/
def evalNode (t : DTree) (x : List Value) : EvalOut :=
  match t.split_feature with
  | none =>
    match t.split_rule with
    | none => .typeErr
    | some _ => .otherErr
  | some f =>
    match x.get? f with
    | none => .otherErr
    | some v =>
      match t.split_rule with
      | none => .typeErr
      | some r => applyRuleScalar r v

/-- `GeneralDecisionTree.traverse` (lines 41–52).  The guard
`if self.children is None` in the source never fires — `children` is
always a list — so a leaf is reached through the caught `TypeError` of
calling its absent rule.  `some` is a returned node, `none` an uncaught
exception (or exhausted fuel, unreachable on finite trees). -/
def DTree.traverse : ℕ → DTree → List Value → Option DTree
  | 0, _, _ => none
  | fuel + 1, t, x =>
    match evalNode t x with
    | .typeErr => some t
    | .otherErr => none
    | .idx i =>
      match t.children.get? i with
      | some c => DTree.traverse fuel c x
      | none => none

/-! ### Concrete datasets used by the claim theorems -/

/-- Shorthand for numeric feature values. -/
def vn (q : ℚ) : Value := Value.num q

/-- Shorthand for string (categorical) feature values. -/
def vs (s : String) : Value := Value.str s

/-- Six examples over two numeric features.  Feature 0 (`[1,1,1,2,2,2]`)
separates the labels perfectly at threshold 1; feature 1 (`[1,1,2,2,2,2]`)
is searched afterwards and its best split has the different child
distributions `[2,0]` / `[1,3]`. -/
def sampleX : List (List Value) :=
  [[vn 1, vn 1], [vn 1, vn 1], [vn 1, vn 2], [vn 2, vn 2], [vn 2, vn 2], [vn 2, vn 2]]

def sampleY : List Label := [0, 0, 0, 1, 1, 1]

/-- A fresh root for `sampleX`/`sampleY`: three examples of each class. -/
def sampleRoot : DTree := DTree.mk "root" none none [] [3, 3] 6

/-- C1: in `grow_tree` the child nodes of a committed split must receive the
class distributions of the committed best feature.  They do not: on
`sampleX` the committed split is feature 0 (whose split-search
distributions are `[3,0]` / `[0,3]`), yet the constructed children carry
`[2,0]` / `[1,3]` — the distributions of feature 1, the last column
searched, because the source rebinds `left_distribution` /
`right_distribution` on every loop iteration and only the impurity,
threshold and index are saved with the best. -/
theorem c1_committed_distributions_bug :
    (growTree 12 sampleRoot sampleX sampleY [.n, .n] (1/2) [0, 1] 2 none 0 1).tree?.map
        (fun t => (t.split_feature, t.children.map DTree.class_counts))
      = some (some 0, [[2, 0], [1, 3]])
    ∧ (bestSplitClassification (getCol sampleX 0) sampleY .n [0, 1]).map
        (fun r => (r.bestLeft, r.bestRight))
      = some (some [3, 0], some [0, 3]) := by
  constructor <;> with_unfolding_all rfl

/-- C8: after a committed split a parent's `n_subset` must equal the sum of
its children's `n_subset` values.  Growing `sampleX` with `min_size = 1`
commits a root split on feature 0 and then a further split inside the left
child; that child was created with `n_subset = 2` (the sum of the *last*
feature's left distribution) although it holds three examples, and its own
children carry `n_subset` 2 and 1 — summing to 3 ≠ 2. -/
theorem c8_n_subset_bug :
    ((growTree 12 sampleRoot sampleX sampleY [.n, .n] (1/2) [0, 1] 1 none 0 1).tree?.bind
        (fun t => t.children.get? 0)).map
        (fun c => (c.n_subset, (c.children.map DTree.n_subset).sum))
      = some (2, 3) := by
  with_unfolding_all rfl

/-- C4: the claim says child assignment can never yield more than two
children and that the deleter leaves zero children.  Both fail: the setter
appends the assigned pair to the existing list (two assignments give four
children), and the deleter's `for child in ...: remove(child)` loop
mutates the list it iterates, so on a two-child node it removes only the
first child and leaves one — breaking the zero-or-two invariant the class
itself asserts. -/
theorem c4_children_ops_bug :
    (DTree.delChildren (DTree.mk "p" none none
        [DTree.mk "a" none none [] [1] 1, DTree.mk "b" none none [] [2] 2] [3] 3)).children.length
      = 1
    ∧ ((DTree.mk "p" none none
        [DTree.mk "a" none none [] [1] 1, DTree.mk "b" none none [] [2] 2] [3] 3).setChildren
          [DTree.mk "c" none none [] [1] 1, DTree.mk "d" none none [] [2] 2]).map
        (fun t => t.children.length)
      = some 4 := by
  constructor <;> rfl

/-- The column of categorical values used for the C2 theorem. -/
def catCol : List Value := [vs "a", vs "b", vs "c"]

/-- C2: during split search the categorical predicate is membership
(`np.isin`), but the rule committed to the node is `x == best_thr`; for a
multi-element candidate subset such as `{a, b}` (which the candidate
generator produces for the values `{a, b, c}`) equality is not a
membership test: on the scalar value `a` — a member of the subset — the
committed rule produces a multi-element comparison on which `asscalar`
raises instead of a child index, and applying it to the training column
raises as well, where the claim requires the example to be routed right. -/
theorem c2_committed_rule_not_membership :
    [vs "a", vs "b"] ∈ findSplits (uniqueSortedV catCol)
    ∧ searchSelection .c (.subset [vs "a", vs "b"]) catCol = some [true, true, false]
    ∧ applyRuleScalar (commitRule .c (.subset [vs "a", vs "b"])) (vs "a") = .otherErr
    ∧ applyRuleCol (commitRule .c (.subset [vs "a", vs "b"])) catCol = none := by
  refine ⟨?_, rfl, rfl, rfl⟩
  with_unfolding_all decide

/-- The four-example, one-feature dataset used for the C3 theorems. -/
def fourX : List (List Value) := [[vn 1], [vn 1], [vn 2], [vn 2]]

def fourY : List Label := [0, 0, 1, 1]

def fourRoot : DTree := DTree.mk "root" none none [] [2, 2] 4

/-- C3 counterexample: with `max_depth = 0` the depth guard
`current_depth > max_depth` is false at the root (`0 > 0`), so growth may
still split the root — here it attaches two children, refuting "the tree
stays a single leaf". -/
theorem c3_counterexample :
    (growTree 10 fourRoot fourX fourY [.n] (1/2) [0, 1] 2 (some 0) 0 1).tree?.map
        (fun t => t.children.length)
      = some 2 := by
  with_unfolding_all rfl

/-! ### Structural facts about the node operations -/

theorem setSplit_children (t : DTree) (r : Option SplitRule) (f : Option ℕ) :
    (t.setSplit r f).children = t.children := by
  cases t
  rfl

theorem setSplit_class_counts (t : DTree) (r : Option SplitRule) (f : Option ℕ) :
    (t.setSplit r f).class_counts = t.class_counts := by
  cases t
  rfl

theorem setSplit_n_subset (t : DTree) (r : Option SplitRule) (f : Option ℕ) :
    (t.setSplit r f).n_subset = t.n_subset := by
  cases t
  rfl

theorem setSplit_split_rule (t : DTree) (r : Option SplitRule) (f : Option ℕ) :
    (t.setSplit r f).split_rule = r := by
  cases t
  rfl

theorem setSplit_split_feature (t : DTree) (r : Option SplitRule) (f : Option ℕ) :
    (t.setSplit r f).split_feature = f := by
  cases t
  rfl

theorem appendChildren_children (t : DTree) (cs : List DTree) :
    (t.appendChildren cs).children = t.children ++ cs := by
  cases t
  rfl

/-- C6: when evaluating the stored split rule on the example's value at the
split feature raises the `TypeError` that `traverse` guards against — as a
missing (`None`) value under a numeric comparison does — the traversal does
not propagate the failure: it returns the current node itself, as if it
were a leaf. -/
theorem c6_traverse_failure_returns_node (fuel : ℕ) (t : DTree) (x : List Value)
    (f : ℕ) (r : SplitRule) (v : Value)
    (hfeat : t.split_feature = some f) (hrule : t.split_rule = some r)
    (hval : x.get? f = some v) (herr : applyRuleScalar r v = .typeErr)
    (hfuel : 0 < fuel) :
    DTree.traverse fuel t x = some t := by
  cases fuel with
  | zero => exact absurd hfuel (by simp)
  | succ fu =>
    rw [List.get?_eq_getElem?] at hval
    simp [DTree.traverse, evalNode, hfeat, hval, hrule, herr]

/-- C6 witness: a non-leaf node whose rule compares against the number 5,
traversed with a missing value, is returned itself. -/
theorem c6_witness :
    DTree.traverse 3 (DTree.mk "node" (some (.gt (vn 5))) (some 0)
        [DTree.mk "l" none none [] [3, 0] 3, DTree.mk "rgt" none none [] [0, 3] 3] [3, 3] 6)
        [Value.na]
      = some (DTree.mk "node" (some (.gt (vn 5))) (some 0)
        [DTree.mk "l" none none [] [3, 0] 3, DTree.mk "rgt" none none [] [0, 3] 3] [3, 3] 6) :=
  c6_traverse_failure_returns_node 3 _ [Value.na] 0 (.gt (vn 5)) Value.na rfl rfl rfl rfl
    (by decide)

/-- C5: when the commit phase of `grow_tree` accepts a best split
(`best_thr` exists and `max_gini > best_gini`) but either realized side of
the partition falls below `min_size`, the split is discarded atomically:
`split_rule` and `split_feature` are reverted to absent, no children are
attached, and the node keeps its class distribution and count. -/
theorem c5_min_size_discard (fuel : ℕ) (t : DTree) (X : List (List Value))
    (y : List Label) (dts : List DType) (bg : ℚ) (classes : List Label)
    (ms : ℕ) (md : Option ℕ) (cd : ℕ) (mg : ℚ) (st : LoopState)
    (thr : Cand) (i : ℕ) (dtp : DType) (splits : List Bool)
    (hg1 : ¬(y.length < ms ∨ bg = 0))
    (hg2 : depthExceeded md cd = false)
    (hloop : featureLoop X y dts classes bg = some st)
    (hbest : st.best? = some (some thr, i, dtp))
    (hmg : mg > st.bestGini)
    (hcol : applyRuleCol (commitRule dtp thr) (getCol X i) = some splits)
    (hsmall : (selectWhere splits y).length < ms ∨ (selectWhere (negMask splits) y).length < ms) :
    growTree (fuel + 1) t X y dts bg classes ms md cd mg = .ok (t.setSplit none none)
    ∧ (t.setSplit none none).split_rule = none
    ∧ (t.setSplit none none).split_feature = none
    ∧ (t.setSplit none none).children = t.children
    ∧ (t.setSplit none none).class_counts = t.class_counts
    ∧ (t.setSplit none none).n_subset = t.n_subset := by
  refine ⟨?_, setSplit_split_rule t none none, setSplit_split_feature t none none,
    setSplit_children t none none, setSplit_class_counts t none none,
    setSplit_n_subset t none none⟩
  simp only [growTree, if_neg hg1, hg2, Bool.false_eq_true, if_false, hloop, hbest,
    if_pos hmg, hcol, if_pos hsmall]

/-- The two-example dataset used by the C5 and C10 witnesses: a perfect
split exists but each side holds a single example. -/
def twoX : List (List Value) := [[vn 1], [vn 2]]

def twoY : List Label := [0, 1]

def twoRoot : DTree := DTree.mk "root" none none [] [1, 1] 2

/-- C5 witness: on `twoX` with `min_size = 2` the numerically perfect split
at threshold 1 is found and accepted, then discarded because both realized
sides hold one example; the root comes back as a leaf. -/
theorem c5_witness :
    growTree (4 + 1) twoRoot twoX twoY [.n] (1/2) [0, 1] 2 none 0 1
        = .ok (twoRoot.setSplit none none)
    ∧ (twoRoot.setSplit none none).split_rule = none
    ∧ (twoRoot.setSplit none none).split_feature = none
    ∧ (twoRoot.setSplit none none).children = twoRoot.children
    ∧ (twoRoot.setSplit none none).class_counts = twoRoot.class_counts
    ∧ (twoRoot.setSplit none none).n_subset = twoRoot.n_subset :=
  c5_min_size_discard 4 twoRoot twoX twoY [.n] (1/2) [0, 1] 2 none 0 1
    ⟨0, some (some (.v (vn 1)), 0, .n), some [1, 0], some [0, 1]⟩
    (.v (vn 1)) 0 .n [false, true]
    (by with_unfolding_all decide) rfl (by with_unfolding_all rfl) rfl
    (by with_unfolding_all decide) (by with_unfolding_all rfl) (by decide)

/-- C10: apart from the root-level commit test `max_gini > best_gini`, the
`max_gini` argument has no influence on the result of `grow_tree`: the
recursive calls growing the two children do not pass it along, so any two
ceilings that agree on the root's commit decision produce identical trees —
in particular every descendant is grown under the default ceiling `1`
rather than a caller-supplied `max_gini < 1`. -/
theorem c10_max_gini_only_at_root (fuel : ℕ) (t : DTree) (X : List (List Value))
    (y : List Label) (dts : List DType) (bg : ℚ) (classes : List Label)
    (ms : ℕ) (md : Option ℕ) (cd : ℕ) (mg mg' : ℚ) (st : LoopState)
    (hloop : featureLoop X y dts classes bg = some st)
    (hiff : mg > st.bestGini ↔ mg' > st.bestGini) :
    growTree fuel t X y dts bg classes ms md cd mg
      = growTree fuel t X y dts bg classes ms md cd mg' := by
  cases fuel with
  | zero => rfl
  | succ fu =>
    simp only [growTree, hloop]
    by_cases h1 : y.length < ms ∨ bg = 0
    · rw [if_pos h1, if_pos h1]
    rw [if_neg h1, if_neg h1]
    by_cases h2 : depthExceeded md cd = true
    · rw [if_pos h2, if_pos h2]
    rw [if_neg h2, if_neg h2]
    rcases hb : st.best? with _ | ⟨thr?, i, dtp⟩
    · simp only [hb]
    rcases thr? with _ | thr
    · simp only [hb]
    simp only [hb]
    by_cases hm : mg > st.bestGini
    · rw [if_pos hm, if_pos (hiff.mp hm)]
    · rw [if_neg hm, if_neg (fun hx => hm (hiff.mpr hx))]

/-- C10 witness: with the perfect split of `twoX` (best impurity 0) the
ceilings `1/2` and `1` agree on the commit decision, and the grown trees
coincide. -/
theorem c10_witness :
    growTree 5 twoRoot twoX twoY [.n] (1/2) [0, 1] 2 none 0 (1/2)
      = growTree 5 twoRoot twoX twoY [.n] (1/2) [0, 1] 2 none 0 1 :=
  c10_max_gini_only_at_root 5 twoRoot twoX twoY [.n] (1/2) [0, 1] 2 none 0 (1/2) 1
    ⟨0, some (some (.v (vn 1)), 0, .n), some [1, 0], some [0, 1]⟩
    (by with_unfolding_all rfl) (by with_unfolding_all decide)

/-- Lines 111–114: with a depth ceiling set, a call whose `current_depth`
strictly exceeds `max_depth` returns without touching the node. -/
theorem growTree_depth_stop (fuel : ℕ) (t : DTree) (X : List (List Value))
    (y : List Label) (dts : List DType) (bg : ℚ) (classes : List Label)
    (ms : ℕ) (m cd : ℕ) (mg : ℚ) (hd : m < cd) :
    growTree (fuel + 1) t X y dts bg classes ms (some m) cd mg = .ok t := by
  simp only [growTree]
  by_cases h1 : y.length < ms ∨ bg = 0
  · rw [if_pos h1]
  · rw [if_neg h1, if_pos (by simp [depthExceeded, hd])]

/-- C3 (amended): with `max_depth = 0` and `current_depth = 0` the depth
guard `current_depth > max_depth` does not fire, so the root itself may
still be split; the ceiling only stops the next level — the children are
grown at depth `1 > 0` and stay leaves, so no grandchildren are ever
attached. -/
theorem c3_amended_no_grandchildren (fuel : ℕ) (t t' : DTree) (X : List (List Value))
    (y : List Label) (dts : List DType) (bg : ℚ) (classes : List Label)
    (ms : ℕ) (mg : ℚ)
    (hleaf : t.children = [])
    (hgrow : growTree fuel t X y dts bg classes ms (some 0) 0 mg = .ok t') :
    ∀ c ∈ t'.children, c.children = [] := by
  cases fuel with
  | zero => exact GrowResult.noConfusion hgrow
  | succ fu =>
    simp only [growTree] at hgrow
    by_cases h1 : y.length < ms ∨ bg = 0
    · rw [if_pos h1] at hgrow
      injection hgrow with h
      subst h
      simp [hleaf]
    rw [if_neg h1, if_neg (by simp [depthExceeded])] at hgrow
    cases hfl : featureLoop X y dts classes bg with
    | none =>
      simp only [hfl] at hgrow
      exact GrowResult.noConfusion hgrow
    | some st =>
      simp only [hfl] at hgrow
      rcases hb : st.best? with _ | ⟨thr?, i, dtp⟩
      · simp only [hb] at hgrow
        injection hgrow with h
        subst h
        simp [hleaf]
      rcases thr? with _ | thr
      · simp only [hb] at hgrow
        injection hgrow with h
        subst h
        simp [hleaf]
      simp only [hb] at hgrow
      by_cases hm : mg > st.bestGini
      swap
      · rw [if_neg hm] at hgrow
        injection hgrow with h
        subst h
        simp [hleaf]
      rw [if_pos hm] at hgrow
      cases hcol : applyRuleCol (commitRule dtp thr) (getCol X i) with
      | none =>
        simp only [hcol] at hgrow
        exact GrowResult.noConfusion hgrow
      | some splits =>
        simp only [hcol] at hgrow
        by_cases hsm : (selectWhere splits y).length < ms ∨ (selectWhere (negMask splits) y).length < ms
        · rw [if_pos hsm] at hgrow
          injection hgrow with h
          subst h
          rw [setSplit_children, hleaf]
          simp
        rw [if_neg hsm] at hgrow
        rcases hll : st.lastLeft with _ | ld
        · simp only [hll] at hgrow
          exact GrowResult.noConfusion hgrow
        rcases hlr : st.lastRight with _ | rd
        · simp only [hll, hlr] at hgrow
          exact GrowResult.noConfusion hgrow
        simp only [hll, hlr] at hgrow
        cases fu with
        | zero => exact GrowResult.noConfusion hgrow
        | succ fu2 =>
          rw [growTree_depth_stop fu2 _ _ _ _ _ _ _ 0 1 1 (by omega)] at hgrow
          rw [growTree_depth_stop fu2 _ _ _ _ _ _ _ 0 1 1 (by omega)] at hgrow
          simp only [DTree.setChildren, List.length_cons, List.length_nil, if_true] at hgrow
          injection hgrow with h
          subst h
          intro c hc
          rw [appendChildren_children, setSplit_children, hleaf] at hc
          simp only [List.nil_append, List.mem_cons, List.not_mem_nil, or_false] at hc
          rcases hc with hc | hc <;> subst hc <;> rfl

/-- The tree grown from `fourX` with `max_depth = 0`: a split root with two
leaf children. -/
def fourGrown : DTree :=
  DTree.mk "root" (some (.gt (vn 1))) (some 0)
    [DTree.mk "root_0_child1" none none [] [2, 0] 2,
     DTree.mk "root_0_child2" none none [] [0, 2] 2] [2, 2] 4

/-- C3 witness: the `max_depth = 0` run on `fourX` splits the root, and the
amended claim applies — the resulting children are leaves. -/
theorem c3_witness :
    growTree 10 fourRoot fourX fourY [.n] (1/2) [0, 1] 2 (some 0) 0 1 = .ok fourGrown
    ∧ (DTree.mk "root_0_child1" none none [] [2, 0] 2).children = [] :=
  ⟨by with_unfolding_all rfl,
   c3_amended_no_grandchildren 10 fourRoot fourGrown fourX fourY [.n] (1/2) [0, 1] 2 1 rfl
     (by with_unfolding_all rfl) (DTree.mk "root_0_child1" none none [] [2, 0] 2)
     (by simp [fourGrown, DTree.children])⟩

/-! ### Order facts about the candidate enumeration -/

theorem vlt_trans (a b c : Value) (h1 : vlt a b = true) (h2 : vlt b c = true) :
    vlt a c = true := by
  cases a <;> cases b <;> cases c <;>
    simp only [vlt, decide_eq_true_eq, Bool.false_eq_true] at h1 h2 ⊢ <;>
    exact lt_trans h1 h2

theorem vlt_total (a b : Value) (hne : a ≠ b) : vlt a b = true ∨ vlt b a = true := by
  cases a <;> cases b <;> simp only [vlt, decide_eq_true_eq] <;>
    first
      | exact Or.inl trivial
      | exact Or.inr trivial
      | exact absurd rfl hne
      | exact lt_or_gt_of_ne (fun h => hne (by rw [h]))

theorem mem_insV (a b : Value) (l : List Value) : b ∈ insV a l ↔ b = a ∨ b ∈ l := by
  induction l with
  | nil => simp [insV]
  | cons c cs ih =>
    by_cases hac : a = c
    · subst hac
      simp [insV, List.mem_cons]
    by_cases hlt : vlt a c = true
    · simp [insV, hac, hlt, List.mem_cons]
    · simp [insV, hac, hlt, List.mem_cons, ih]
      tauto

theorem pairwise_insV (a : Value) (l : List Value)
    (h : l.Pairwise (fun x z => vlt x z = true)) :
    (insV a l).Pairwise (fun x z => vlt x z = true) := by
  induction l with
  | nil => simp [insV]
  | cons c cs ih =>
    by_cases hac : a = c
    · subst hac
      simpa [insV] using h
    by_cases hlt : vlt a c = true
    · simp only [insV, if_neg hac, if_pos hlt]
      rw [List.pairwise_cons]
      refine ⟨?_, h⟩
      intro z hz
      rcases List.mem_cons.mp hz with hzc | hz2
      · subst hzc
        exact hlt
      · exact vlt_trans a c z hlt ((List.pairwise_cons.mp h).1 z hz2)
    · simp only [insV, if_neg hac, if_neg hlt]
      rw [List.pairwise_cons] at h ⊢
      obtain ⟨hc, hcs⟩ := h
      refine ⟨?_, ih hcs⟩
      intro z hz
      rcases (mem_insV a z cs).mp hz with hza | hz2
      · subst hza
        rcases vlt_total z c hac with hlt2 | hlt2
        · exact absurd hlt2 hlt
        · exact hlt2
      · exact hc z hz2

/-- The candidate enumeration for numeric/ordinal features is in strictly
ascending order. -/
theorem pairwise_uniqueSortedV (l : List Value) :
    (uniqueSortedV l).Pairwise (fun x z => vlt x z = true) := by
  induction l with
  | nil => simp [uniqueSortedV]
  | cons a as ih => exact pairwise_insV a _ ih

/-! ### The first-minimizer invariant of the candidate loop -/

/-- Running invariant of the candidate loop of
`_best_split_classification`: a successful run either left the state
untouched (no candidate was valid and strictly better), or the state holds
the **first** candidate, in enumeration order, attaining the minimal valid
weighted impurity — earlier candidates are invalid or strictly worse (not
even equal), later ones are invalid or no better. -/
theorem splitLoop_spec (x : List Value) (y : List Label) (classes : List Label) (dt : DType) :
    ∀ (cs : List Cand) (st res : SplitResult),
      splitLoop x y classes dt st cs = some res →
      (res = st ∧ ∀ c ∈ cs, ∀ info, candEval x y classes dt c = some info →
          ¬(info.ok = true ∧ info.gS < st.impurity))
      ∨ (∃ pre c suf info, cs = pre ++ c :: suf ∧
          candEval x y classes dt c = some info ∧ info.ok = true ∧
          info.gS < st.impurity ∧
          res = ⟨some c, info.gS, some info.ld, some info.rd⟩ ∧
          (∀ c2 ∈ pre, ∀ i2, candEval x y classes dt c2 = some i2 →
              ¬(i2.ok = true ∧ i2.gS ≤ info.gS)) ∧
          (∀ c2 ∈ suf, ∀ i2, candEval x y classes dt c2 = some i2 →
              ¬(i2.ok = true ∧ i2.gS < info.gS))) := by
  intro cs
  induction cs with
  | nil =>
    intro st res h
    left
    simp only [splitLoop] at h
    injection h with h
    exact ⟨h.symm, by simp⟩
  | cons c cs ih =>
    intro st res h
    simp only [splitLoop] at h
    cases hce : candEval x y classes dt c with
    | none =>
      simp only [splitStep, hce] at h
      exact Option.noConfusion h
    | some info =>
      simp only [splitStep, hce] at h
      by_cases hupd : info.ok = true ∧ info.gS < st.impurity
      · rw [if_pos hupd] at h
        rcases ih ⟨some c, info.gS, some info.ld, some info.rd⟩ res h with
          ⟨hres, hnone⟩ | ⟨pre, c2, suf, i2, hcs, hc2, hok2, hlt2, hres, hpre, hsuf⟩
        · right
          refine ⟨[], c, cs, info, rfl, hce, hupd.1, hupd.2, hres, by simp, ?_⟩
          intro c2 hc2 i2 hci2
          exact hnone c2 hc2 i2 hci2
        · right
          refine ⟨c :: pre, c2, suf, i2, by simp [hcs], hc2, hok2,
            lt_trans hlt2 hupd.2, hres, ?_, hsuf⟩
          intro c3 hc3 i3 hci3
          rcases List.mem_cons.mp hc3 with rfl | hc3'
          · rw [hce] at hci3
            injection hci3 with h3
            subst h3
            rintro ⟨_, hle⟩
            exact absurd (lt_of_le_of_lt hle hlt2) (lt_irrefl _)
          · exact hpre c3 hc3' i3 hci3
      · rw [if_neg hupd] at h
        rcases ih st res h with
          ⟨hres, hnone⟩ | ⟨pre, c2, suf, i2, hcs, hc2, hok2, hlt2, hres, hpre, hsuf⟩
        · left
          refine ⟨hres, ?_⟩
          intro c3 hc3 i3 hci3
          rcases List.mem_cons.mp hc3 with rfl | hc3'
          · rw [hce] at hci3
            injection hci3 with h3
            subst h3
            exact hupd
          · exact hnone c3 hc3' i3 hci3
        · right
          refine ⟨c :: pre, c2, suf, i2, by simp [hcs], hc2, hok2, hlt2, hres, ?_, hsuf⟩
          intro c3 hc3 i3 hci3
          rcases List.mem_cons.mp hc3 with rfl | hc3'
          · rw [hce] at hci3
            injection hci3 with h3
            subst h3
            rintro ⟨hok3, hle3⟩
            exact hupd ⟨hok3, lt_of_le_of_lt hle3 hlt2⟩
          · exact hpre c3 hc3' i3 hci3

/-- C7: the candidate enumeration of Split Search is ascending (distinct
sorted values for numeric/ordinal features), and the returned candidate is
the **first** one, in enumeration order, attaining the minimal valid
weighted impurity: every earlier candidate is invalid or has strictly
greater impurity (an equal-impurity candidate never overwrites the running
best, since the update test is strict `<`), and every later candidate is
invalid or no better. -/
theorem c7_tie_break (x : List Value) (y : List Label) (dt : DType)
    (classes : List Label) (res : SplitResult) (c : Cand)
    (hres : bestSplitClassification x y dt classes = some res)
    (hthr : res.bestThr = some c) :
    (uniqueSortedV x).Pairwise (fun a b => vlt a b = true) ∧
    ∃ pre suf info, candidatesFor dt x = pre ++ c :: suf ∧
      candEval x y classes dt c = some info ∧ info.ok = true ∧
      res.impurity = info.gS ∧
      (∀ c2 ∈ pre, ∀ i2, candEval x y classes dt c2 = some i2 →
          ¬(i2.ok = true ∧ i2.gS ≤ info.gS)) ∧
      (∀ c2 ∈ suf, ∀ i2, candEval x y classes dt c2 = some i2 →
          ¬(i2.ok = true ∧ i2.gS < info.gS)) := by
  refine ⟨pairwise_uniqueSortedV x, ?_⟩
  rcases splitLoop_spec x y classes dt (candidatesFor dt x) ⟨none, 1, none, none⟩ res hres with
    ⟨hres2, _⟩ | ⟨pre, c2, suf, info, hcs, hc2, hok, hlt, hres2, hpre, hsuf⟩
  · rw [hres2] at hthr
    exact Option.noConfusion hthr
  · subst hres2
    have hc2c : c2 = c := by simpa using hthr
    subst hc2c
    exact ⟨pre, suf, info, hcs, hc2, hok, rfl, hpre, hsuf⟩

/-- The feature column with an impurity tie used by the C7 witness:
thresholds 1 and 3 both achieve weighted impurity 1/3. -/
def tieX : List Value := [vn 1, vn 2, vn 3, vn 4]

def tieY : List Label := [0, 1, 0, 1]

/-- C7 witness: on `tieX` the thresholds 1 and 3 tie at impurity 1/3, and
the search returns threshold 1, the first in ascending order. -/
theorem c7_witness :
    bestSplitClassification tieX tieY .n [0, 1]
        = some ⟨some (.v (vn 1)), 1/3, some [1, 0], some [1, 2]⟩
    ∧ ((uniqueSortedV tieX).Pairwise (fun a b => vlt a b = true) ∧
      ∃ pre suf info, candidatesFor .n tieX = pre ++ (Cand.v (vn 1)) :: suf ∧
        candEval tieX tieY [0, 1] .n (Cand.v (vn 1)) = some info ∧ info.ok = true ∧
        (1 : ℚ)/3 = info.gS ∧
        (∀ c2 ∈ pre, ∀ i2, candEval tieX tieY [0, 1] .n c2 = some i2 →
            ¬(i2.ok = true ∧ i2.gS ≤ info.gS)) ∧
        (∀ c2 ∈ suf, ∀ i2, candEval tieX tieY [0, 1] .n c2 = some i2 →
            ¬(i2.ok = true ∧ i2.gS < info.gS))) :=
  ⟨by with_unfolding_all rfl,
   c7_tie_break tieX tieY .n [0, 1]
     ⟨some (.v (vn 1)), 1/3, some [1, 0], some [1, 2]⟩ (.v (vn 1))
     (by with_unfolding_all rfl) rfl⟩

/-! ### Length bookkeeping for masks and selections -/

theorem mapOpt_length (f : α → Option β) :
    ∀ (l : List α) (l2 : List β), mapOpt f l = some l2 → l2.length = l.length := by
  intro l
  induction l with
  | nil =>
    intro l2 h
    simp only [mapOpt] at h
    injection h with h
    subst h
    rfl
  | cons a as ih =>
    intro l2 h
    simp only [mapOpt] at h
    cases hfa : f a with
    | none =>
      simp only [hfa] at h
      exact Option.noConfusion h
    | some b =>
      simp only [hfa] at h
      cases hrec : mapOpt f as with
      | none =>
        simp only [hrec] at h
        exact Option.noConfusion h
      | some bs =>
        simp only [hrec] at h
        injection h with h
        subst h
        simp [ih bs hrec]

theorem negMask_length : ∀ m : List Bool, (negMask m).length = m.length := by
  intro m
  induction m with
  | nil => rfl
  | cons b ms ih => simp [negMask, ih]

theorem getCol_length (X : List (List Value)) (i : ℕ) : (getCol X i).length = X.length :=
  List.length_map X _

theorem searchSelection_length (dt : DType) (cand : Cand) (x : List Value) (sel : List Bool)
    (h : searchSelection dt cand x = some sel) : sel.length = x.length := by
  cases dt with
  | c =>
    simp only [searchSelection] at h
    injection h with h
    subst h
    exact List.length_map x _
  | n =>
    cases cand with
    | v t =>
      simp only [searchSelection] at h
      exact mapOpt_length _ x sel h
    | subset s =>
      simp only [searchSelection] at h
      exact Option.noConfusion h
  | o =>
    cases cand with
    | v t =>
      simp only [searchSelection] at h
      exact mapOpt_length _ x sel h
    | subset s =>
      simp only [searchSelection] at h
      exact Option.noConfusion h

theorem selectWhere_length_add {α : Type} :
    ∀ (m : List Bool) (l : List α), m.length = l.length →
      (selectWhere m l).length + (selectWhere (negMask m) l).length = l.length := by
  intro m
  induction m with
  | nil =>
    intro l h
    cases l with
    | nil => rfl
    | cons a as => simp at h
  | cons b ms ih =>
    intro l h
    cases l with
    | nil => simp at h
    | cons a as =>
      have hlen : ms.length = as.length := by simpa using h
      cases b with
      | true =>
        simp only [selectWhere, negMask, Bool.not_true, List.length_cons]
        have := ih as hlen
        omega
      | false =>
        simp only [selectWhere, negMask, Bool.not_false, List.length_cons]
        have := ih as hlen
        omega

theorem selectWhere_length_eq {α β : Type} :
    ∀ (m : List Bool) (l1 : List α) (l2 : List β), m.length = l1.length →
      m.length = l2.length → (selectWhere m l1).length = (selectWhere m l2).length := by
  intro m
  induction m with
  | nil => intro l1 l2 h1 h2; rfl
  | cons b ms ih =>
    intro l1 l2 h1 h2
    cases l1 with
    | nil => simp at h1
    | cons a1 as1 =>
      cases l2 with
      | nil => simp at h2
      | cons a2 as2 =>
        have h1' : ms.length = as1.length := by simpa using h1
        have h2' : ms.length = as2.length := by simpa using h2
        cases b with
        | true =>
          simp only [selectWhere, List.length_cons]
          rw [ih as1 as2 h1' h2']
        | false =>
          simp only [selectWhere]
          exact ih as1 as2 h1' h2'

theorem insV_length_le (a : Value) : ∀ l : List Value, (insV a l).length ≤ l.length + 1 := by
  intro l
  induction l with
  | nil => simp [insV]
  | cons b bs ih =>
    by_cases hab : a = b
    · simp [insV, hab]
    by_cases hlt : vlt a b = true
    · simp [insV, hab, hlt]
    · simp only [insV, if_neg hab, if_neg hlt, List.length_cons]
      omega

theorem uniqueSortedV_length_le : ∀ l : List Value, (uniqueSortedV l).length ≤ l.length := by
  intro l
  induction l with
  | nil => simp [uniqueSortedV]
  | cons a as ih =>
    have h1 : (insV a (uniqueSortedV as)).length ≤ (uniqueSortedV as).length + 1 :=
      insV_length_le a _
    have : uniqueSortedV (a :: as) = insV a (uniqueSortedV as) := rfl
    rw [this]
    simp only [List.length_cons]
    omega

theorem mem_findSplits_length (u s : List Value) (h : s ∈ findSplits u) :
    s.length < u.length := by
  rcases List.mem_filter.mp h with ⟨_, hp⟩
  simp only [Bool.and_eq_true, decide_eq_true_eq] at hp
  exact hp.2

theorem mem_findSplits_nonempty (u s : List Value) (h : s ∈ findSplits u) : s ≠ [] := by
  rcases List.mem_filter.mp h with ⟨_, hp⟩
  simp only [Bool.and_eq_true, decide_eq_true_eq] at hp
  intro hnil
  subst hnil
  simp at hp

theorem candidatesFor_c_elim (x : List Value) (c : Cand) (h : c ∈ candidatesFor .c x) :
    ∃ s, c = .subset s ∧ s ∈ findSplits (uniqueSortedV x) := by
  simp only [candidatesFor, List.mem_map] at h
  rcases h with ⟨s, hs, rfl⟩
  exact ⟨s, rfl, hs⟩

theorem candidatesFor_ne_c_elim (dt : DType) (x : List Value) (c : Cand) (hdt : dt ≠ .c)
    (h : c ∈ candidatesFor dt x) : ∃ t, c = .v t := by
  cases dt with
  | c => exact absurd rfl hdt
  | n =>
    simp only [candidatesFor, List.mem_map] at h
    rcases h with ⟨t, _, rfl⟩
    exact ⟨t, rfl⟩
  | o =>
    simp only [candidatesFor, List.mem_map] at h
    rcases h with ⟨t, _, rfl⟩
    exact ⟨t, rfl⟩

theorem candEval_ok_elim (x : List Value) (y classes : List Label) (dt : DType) (cand : Cand)
    (info : CandInfo) (h : candEval x y classes dt cand = some info) (hok : info.ok = true) :
    ∃ sel, searchSelection dt cand x = some sel ∧
      (selectWhere sel y).length ≠ 0 ∧ y.length - (selectWhere sel y).length ≠ 0 := by
  simp only [candEval] at h
  cases hss : searchSelection dt cand x with
  | none =>
    simp only [hss] at h
    exact Option.noConfusion h
  | some sel =>
    simp only [hss] at h
    injection h with h
    subst h
    simp only [Bool.and_eq_true, decide_eq_true_eq] at hok
    exact ⟨sel, rfl, hok.1, hok.2⟩

/-- Last-update characterization of the feature loop: a successful run
either never improved on the incoming state, or its final best and running
impurity were written together by the `_best_split_classification` result
of one of the searched features. -/
theorem featLoopGo_spec (X : List (List Value)) (y : List Label) (classes : List Label) :
    ∀ (ps : List (ℕ × DType)) (st st2 : LoopState),
      featLoopGo X y classes st ps = some st2 →
      (st2.best? = st.best? ∧ st2.bestGini = st.bestGini)
      ∨ (∃ p ∈ ps, ∃ r, bestSplitClassification (getCol X p.1) y p.2 classes = some r ∧
          st2.best? = some (r.bestThr, p.1, p.2) ∧ st2.bestGini = r.impurity) := by
  intro ps
  induction ps with
  | nil =>
    intro st st2 h
    simp only [featLoopGo] at h
    injection h with h
    subst h
    exact Or.inl ⟨rfl, rfl⟩
  | cons p ps ih =>
    intro st st2 h
    simp only [featLoopGo] at h
    cases hbs : bestSplitClassification (getCol X p.1) y p.2 classes with
    | none =>
      simp only [featureStep, hbs] at h
      exact Option.noConfusion h
    | some r =>
      simp only [featureStep, hbs] at h
      by_cases himp : r.impurity < st.bestGini
      · rw [if_pos himp] at h
        rcases ih _ st2 h with ⟨hb, hg⟩ | ⟨p2, hp2, r2, hbs2, hb2, hg2⟩
        · exact Or.inr ⟨p, List.mem_cons_self p ps, r, hbs, by rw [hb], by rw [hg]⟩
        · exact Or.inr ⟨p2, List.mem_cons_of_mem p hp2, r2, hbs2, hb2, hg2⟩
      · rw [if_neg himp] at h
        rcases ih _ st2 h with ⟨hb, hg⟩ | ⟨p2, hp2, r2, hbs2, hb2, hg2⟩
        · exact Or.inl ⟨by rw [hb], by rw [hg]⟩
        · exact Or.inr ⟨p2, List.mem_cons_of_mem p hp2, r2, hbs2, hb2, hg2⟩

theorem featureLoop_best_elim (X : List (List Value)) (y : List Label) (dts : List DType)
    (classes : List Label) (bg : ℚ) (st : LoopState) (thrOpt : Option Cand) (i : ℕ)
    (dtp : DType)
    (hloop : featureLoop X y dts classes bg = some st)
    (hbest : st.best? = some (thrOpt, i, dtp)) :
    ∃ r, bestSplitClassification (getCol X i) y dtp classes = some r ∧ r.bestThr = thrOpt ∧
      st.bestGini = r.impurity := by
  rcases featLoopGo_spec X y classes _ _ _ hloop with ⟨hb, _⟩ | ⟨p, _, r, hbs, hb, hg⟩
  · rw [hbest] at hb
    exact Option.noConfusion hb
  · rw [hbest] at hb
    simp only [Option.some.injEq, Prod.mk.injEq] at hb
    obtain ⟨hb1, hb2, hb3⟩ := hb
    subst hb2
    subst hb3
    exact ⟨r, hbs, hb1.symm, hg⟩

theorem bestSplit_thr_elim (x : List Value) (y : List Label) (dtp : DType)
    (classes : List Label) (r : SplitResult) (c : Cand)
    (hbs : bestSplitClassification x y dtp classes = some r)
    (hthr : r.bestThr = some c) :
    c ∈ candidatesFor dtp x ∧ ∃ info, candEval x y classes dtp c = some info ∧
      info.ok = true := by
  rcases splitLoop_spec x y classes dtp (candidatesFor dtp x) ⟨none, 1, none, none⟩ r hbs with
    ⟨hr, _⟩ | ⟨pre, c2, suf, info, hcs, hc2, hok, _, hr, _, _⟩
  · rw [hr] at hthr
    exact Option.noConfusion hthr
  · subst hr
    have hc2c : c2 = c := by simpa using hthr
    subst hc2c
    refine ⟨?_, info, hc2, hok⟩
    rw [hcs]
    exact List.mem_append_right _ (List.mem_cons_self _ _)

/-! ### The committed rule agrees with the search predicate for scalar
candidates, and crashes for multi-element subsets -/

theorem applyRuleCol_gt_search (dt : DType) (hdt : dt ≠ .c) (t : Value) (col : List Value) :
    applyRuleCol (.gt t) col = searchSelection dt (.v t) col := by
  cases dt with
  | c => exact absurd rfl hdt
  | n => rfl
  | o => rfl

theorem applyRuleCol_singleton_search (v : Value) (col : List Value) :
    applyRuleCol (.eq (.subset [v])) col = searchSelection .c (.subset [v]) col := by
  simp [applyRuleCol, searchSelection, npIsinOne, List.mem_singleton]

theorem applyRuleCol_multi_none (a b : Value) (s col : List Value)
    (hne : (a :: b :: s).length ≠ col.length) :
    applyRuleCol (.eq (.subset (a :: b :: s))) col = none := by
  simp only [applyRuleCol]
  rw [if_neg (fun hc => hne hc.symm)]

theorem ok_ne_fuelOut (t : DTree) : GrowResult.ok t ≠ .fuelOut :=
  fun h => GrowResult.noConfusion h

theorem crash_ne_fuelOut : GrowResult.crash ≠ .fuelOut :=
  fun h => GrowResult.noConfusion h

/-- C9: `grow_tree` terminates on every finite dataset, for every setting
of `min_size`, `max_depth` (set or not) and `max_gini`: a committed split's
candidate always has both search-time sides non-empty (the empty-side
candidates are `nan`-skipped), and for every scalar candidate the committed
partition coincides with the searched one, so each recursive call receives
strictly fewer examples; a committed multi-element categorical candidate
raises before recursing.  Hence fuel exceeding the example count is never
exhausted: the model's `fuelOut` — the only unbounded-recursion marker — is
unreachable. -/
theorem c9_termination :
    ∀ (n fuel : ℕ) (t : DTree) (X : List (List Value)) (y : List Label)
      (dts : List DType) (bg : ℚ) (classes : List Label) (ms : ℕ)
      (md : Option ℕ) (cd : ℕ) (mg : ℚ),
      y.length = n → y.length < fuel → X.length = y.length →
      growTree fuel t X y dts bg classes ms md cd mg ≠ .fuelOut := by
  intro n
  induction n using Nat.strong_induction_on with
  | _ n ih =>
    intro fuel t X y dts bg classes ms md cd mg hn hfuel hX
    cases fuel with
    | zero => exact absurd hfuel (Nat.not_lt_zero _)
    | succ fu =>
      simp only [growTree]
      by_cases h1 : y.length < ms ∨ bg = 0
      · rw [if_pos h1]
        exact ok_ne_fuelOut t
      rw [if_neg h1]
      by_cases h2 : depthExceeded md cd = true
      · rw [if_pos h2]
        exact ok_ne_fuelOut t
      rw [if_neg h2]
      cases hfl : featureLoop X y dts classes bg with
      | none =>
        simp only [hfl]
        exact crash_ne_fuelOut
      | some st =>
        simp only [hfl]
        rcases hbq : st.best? with _ | ⟨thrOpt, i, dtp⟩
        · simp only [hbq]
          exact ok_ne_fuelOut t
        rcases thrOpt with _ | thr
        · simp only [hbq]
          exact ok_ne_fuelOut t
        simp only [hbq]
        by_cases hm : mg > st.bestGini
        swap
        · rw [if_neg hm]
          exact ok_ne_fuelOut t
        rw [if_pos hm]
        obtain ⟨r, hbs, hthr, _⟩ :=
          featureLoop_best_elim X y dts classes bg st (some thr) i dtp hfl hbq
        obtain ⟨hcand, info, hce, hok⟩ :=
          bestSplit_thr_elim (getCol X i) y dtp classes r thr hbs hthr
        obtain ⟨sel, hss, hR, hL⟩ :=
          candEval_ok_elim (getCol X i) y classes dtp thr info hce hok
        have hsel_len : sel.length = y.length := by
          rw [searchSelection_length dtp thr (getCol X i) sel hss, getCol_length, hX]
        have hcol : applyRuleCol (commitRule dtp thr) (getCol X i) = some sel
            ∨ applyRuleCol (commitRule dtp thr) (getCol X i) = none := by
          cases dtp with
          | c =>
            obtain ⟨s, rfl, hsf⟩ := candidatesFor_c_elim _ thr hcand
            cases s with
            | nil => exact absurd rfl (mem_findSplits_nonempty _ _ hsf)
            | cons v s2 =>
              cases s2 with
              | nil =>
                left
                rw [show commitRule .c (.subset [v]) = .eq (.subset [v]) from rfl,
                  applyRuleCol_singleton_search]
                exact hss
              | cons w s3 =>
                right
                have hlt := mem_findSplits_length _ _ hsf
                have hle := uniqueSortedV_length_le (getCol X i)
                exact applyRuleCol_multi_none v w s3 (getCol X i) (by omega)
          | n =>
            obtain ⟨tv, rfl⟩ := candidatesFor_ne_c_elim .n _ thr (by decide) hcand
            left
            rw [show commitRule .n (.v tv) = .gt tv from rfl, applyRuleCol_gt_search .n (by decide)]
            exact hss
          | o =>
            obtain ⟨tv, rfl⟩ := candidatesFor_ne_c_elim .o _ thr (by decide) hcand
            left
            rw [show commitRule .o (.v tv) = .gt tv from rfl, applyRuleCol_gt_search .o (by decide)]
            exact hss
        rcases hcol with hcol | hcol
        swap
        · simp only [hcol]
          exact crash_ne_fuelOut
        simp only [hcol]
        have hadd := selectWhere_length_add sel y hsel_len
        by_cases hsm : (selectWhere sel y).length < ms ∨ (selectWhere (negMask sel) y).length < ms
        · rw [if_pos hsm]
          exact ok_ne_fuelOut _
        rw [if_neg hsm]
        rcases hll : st.lastLeft with _ | ld
        · simp only [hll]
          exact crash_ne_fuelOut
        rcases hlr : st.lastRight with _ | rd
        · simp only [hll, hlr]
          exact crash_ne_fuelOut
        simp only [hll, hlr]
        have hRlt : (selectWhere sel y).length < y.length := by omega
        have hLlt : (selectWhere (negMask sel) y).length < y.length := by omega
        have hnm_len : (negMask sel).length = sel.length := negMask_length sel
        have hXL : (selectWhere (negMask sel) X).length = (selectWhere (negMask sel) y).length :=
          selectWhere_length_eq (negMask sel) X y (by omega) (by omega)
        have hXR : (selectWhere sel X).length = (selectWhere sel y).length :=
          selectWhere_length_eq sel X y (by omega) (by omega)
        cases hrecL : growTree fu
            (DTree.mk (t.name ++ "_" ++ toString i ++ "_child1") none none [] ld ld.sum)
            (selectWhere (negMask sel) X) (selectWhere (negMask sel) y) dts
            (giniQ ld (selectWhere (negMask sel) y).length) classes ms md (cd + 1) 1 with
        | fuelOut =>
          exact absurd hrecL
            (ih (selectWhere (negMask sel) y).length (by omega) fu _ _ _ dts _ classes ms md
              (cd + 1) 1 rfl (by omega) hXL)
        | crash =>
          simp only [hrecL]
          exact crash_ne_fuelOut
        | ok lc =>
          simp only [hrecL]
          cases hrecR : growTree fu
              (DTree.mk (t.name ++ "_" ++ toString i ++ "_child2") none none [] rd rd.sum)
              (selectWhere sel X) (selectWhere sel y) dts
              (giniQ rd (selectWhere sel y).length) classes ms md (cd + 1) 1 with
          | fuelOut =>
            exact absurd hrecR
              (ih (selectWhere sel y).length (by omega) fu _ _ _ dts _ classes ms md
                (cd + 1) 1 rfl (by omega) hXR)
          | crash =>
            simp only [hrecR]
            exact crash_ne_fuelOut
          | ok rc =>
            simp only [hrecR, DTree.setChildren, List.length_cons, List.length_nil, if_true]
            exact ok_ne_fuelOut _

/-- C9 witness: on the six-example dataset, fuel 8 (> 6 examples) is never
exhausted. -/
theorem c9_witness :
    sampleY.length = 6 ∧ sampleY.length < 8 ∧ sampleX.length = sampleY.length ∧
    growTree 8 sampleRoot sampleX sampleY [.n, .n] (1/2) [0, 1] 2 none 0 1 ≠ .fuelOut :=
  ⟨rfl, by decide, rfl,
   c9_termination 6 8 sampleRoot sampleX sampleY [.n, .n] (1/2) [0, 1] 2 none 0 1 rfl
     (by decide) rfl⟩
